import Mathlib

/-!
Verification development for the seafile-server HTTP file-access subsystem
(`server/access-file.c`).  The C code is shallowly embedded: blocks are byte
lists (a byte is a `Nat`), the block manager's sequential-read contract is
modelled by list consumption, 64-bit unsigned arithmetic is `Nat` with
explicit reduction modulo `2 ^ 64`, and the external OpenSSL decryption
context is a state type threaded through the per-chunk update / final calls.
Streaming callbacks (`write_data_cb`, `write_file_range_cb`) are modelled by
the sequence of chunks they write across write-ready ticks.
-/

/-- `BUFFER_SIZE` from access-file.c: each read uses a 64 KiB buffer. -/
def BUFFER_SIZE : Nat := 1024 * 64

/-- Modulus of the C type `guint64`. -/
def U64 : Nat := 2 ^ 64

/-- Largest value representable by C `long long` (`strtoll`'s positive saturation bound). -/
def LLMAXn : Nat := 2 ^ 63 - 1

/-- Magnitude of `LLONG_MIN` (`strtoll`'s negative saturation bound). -/
def LLMINmag : Nat := 2 ^ 63

/-- Characters treated as whitespace by `strtoll` (C `isspace`). -/
def isSpaceC (c : Char) : Bool :=
  c.toNat = 32 || c.toNat = 9 || c.toNat = 10 || c.toNat = 11 || c.toNat = 12 || c.toNat = 13

/-- Decimal digit test (C `isdigit`). -/
def isDigitC (c : Char) : Bool :=
  48 ≤ c.toNat && c.toNat ≤ 57

/-- Numeric value of a decimal digit character. -/
def digitVal (c : Char) : Nat := c.toNat - 48

/-- Consume a maximal run of decimal digits, folding them into an accumulator.
Returns the accumulated value and the number of characters consumed. -/
def grabDigits : List Char → Nat → Nat × Nat
  | [], acc => (acc, 0)
  | c :: cs, acc =>
    if isDigitC c then
      let r := grabDigits cs (acc * 10 + digitVal c)
      (r.fst, r.snd + 1)
    else (acc, 0)

/-- A C `long long` value represented in `Nat` arithmetic: a sign flag and a
magnitude (already saturated to the `long long` range). -/
def LLVal : Type := Bool × Nat

/-- Model of C `strtoll(s, &end_ptr, 10)`: skip whitespace, read an optional
sign, then a maximal digit run, saturating to `[LLONG_MIN, LLONG_MAX]`.
Returns the value and the offset of `end_ptr` from the start of the string
(0 when no conversion was performed, as the C standard specifies). -/
def strtollModel (s : List Char) : LLVal × Nat :=
  let wsLen := (s.takeWhile isSpaceC).length
  let afterWs := s.dropWhile isSpaceC
  let hasNeg := afterWs.head? = some '-'
  let hasPlus := afterWs.head? = some '+'
  let signLen := if hasNeg ∨ hasPlus then 1 else 0
  let digits := afterWs.drop signLen
  let r := grabDigits digits 0
  if r.snd = 0 then ((false, 0), 0)
  else if hasNeg then ((true, min r.fst LLMINmag), wsLen + signLen + r.snd)
  else ((false, min r.fst LLMAXn), wsLen + signLen + r.snd)

/-- Conversion of a `long long` value to C `guint64` (reduction mod `2 ^ 64`). -/
def u64OfLL : LLVal → Nat
  | (false, m) => m % U64
  | (true, m) => (U64 - m) % U64

/-- Model of C `strchr(s, c)` followed by `+ 1`: the suffix after the first
occurrence of `c`, or `none` when `c` does not occur (C returns `NULL`). -/
def afterChar (c : Char) : List Char → Option (List Char)
  | [] => none
  | a :: as => if a = c then some as else afterChar c as

/-- Model of C `strchr(s, c)` as an index: position of the first occurrence. -/
def strchrIdx (c : Char) : List Char → Option Nat
  | [] => none
  | a :: as => if a = c then some 0 else (strchrIdx c as).map (· + 1)

/-- Outcome of `parse_range_val`.  `ub` marks the path where the C code
computes `strchr(byte_ranges, '=') + 1` with `strchr` returning `NULL` and
passes the resulting invalid pointer to `g_strdup` (undefined behavior). -/
inductive ParseOutcome where
  | ok (start fin : Nat)
  | invalid
  | ub
deriving DecidableEq, Repr

/-- The mode dispatch of `parse_range_val` on the text after `=`: `-num`,
`num-` and `num-num`, mirroring lines 835-870 of access-file.c.  Returns the
pre-clamp `(start, end)` pair, or `none` on the error paths. -/
def parse_range_core (tmp : List Char) (fsize : Nat) : Option (Nat × Nat) :=
  match strchrIdx '-' tmp with
  | none => none
  | some mi =>
    if mi = 0 then
      let r := strtollModel tmp
      let start := u64OfLL r.fst
      if start = 0 then none
      else if r.snd = tmp.length then
        some ((start + fsize) % U64, (fsize + U64 - 1) % U64)
      else none
    else if mi + 1 = tmp.length then
      let r := strtollModel tmp
      if r.snd = mi then some (u64OfLL r.fst, (fsize + U64 - 1) % U64) else none
    else
      let r := strtollModel tmp
      if r.snd = mi then
        let suffix := tmp.drop (mi + 1)
        let r2 := strtollModel suffix
        if r2.snd = suffix.length then some (u64OfLL r.fst, u64OfLL r2.fst) else none
      else none

/-- Model of `parse_range_val` (access-file.c lines 823-889): strip through the
first `=`, dispatch on the position of the first `-`, then clamp `end` to
`fsize - 1` (in `guint64` arithmetic) and reject when `start > end`. -/
def parse_range_val (byteRanges : List Char) (fsize : Nat) : ParseOutcome :=
  match afterChar '=' byteRanges with
  | none => ParseOutcome.ub
  | some tmp =>
    match parse_range_core tmp fsize with
    | none => ParseOutcome.invalid
    | some (start, en) =>
      let fm1 := (fsize + U64 - 1) % U64
      let en2 := if fm1 < en then fm1 else en
      if en2 < start then ParseOutcome.invalid else ParseOutcome.ok start en2

/-- Split a byte list into the successive chunks a 64 KiB-buffer read loop
produces (fuel-driven so that it evaluates by `rfl`/`decide`). -/
def chunksOfFuel : Nat → List Nat → List (List Nat)
  | 0, _ => []
  | fuel + 1, l =>
    if l = [] then []
    else l.take BUFFER_SIZE :: chunksOfFuel fuel (l.drop BUFFER_SIZE)

/-- The chunk sequence produced by reading a block to EOF 64 KiB at a time. -/
def chunksOf (l : List Nat) : List (List Nat) :=
  chunksOfFuel (l.length + 1) l

/-- The external decryption primitive (`seafile_decrypt_init`,
`EVP_DecryptUpdate`, `EVP_DecryptFinal_ex`) abstracted as a threaded state:
`init` is the freshly initialised context, `upd` consumes one ciphertext
chunk, `fin` emits the plaintext of the trailing partial cipher block. -/
structure DecFns (σ : Type) where
  init : σ
  upd : σ → List Nat → σ × List Nat
  fin : σ → List Nat

/-- Per-block pipeline of `write_data_cb` for an encrypted file: initialise a
context, push each 64 KiB chunk through `upd`, and when `remain` reaches zero
(i.e. after the final chunk) append the `fin` output.  An empty block reads 0
immediately, so the context is torn down without update or final. -/
def decryptBlock (σ : Type) (d : DecFns σ) (b : List Nat) : List Nat :=
  if b = [] then []
  else
    let r := (chunksOf b).foldl
      (fun acc c =>
        let u := d.upd acc.fst c
        (u.fst, acc.snd ++ u.snd))
      (d.init, ([] : List Nat))
    r.snd ++ d.fin r.fst

/-- Body emitted by the whole-file engine (`write_data_cb`): the blocks in
list order, each either streamed raw in 64 KiB chunks or pushed through the
per-block decryption pipeline. -/
def wholeBody (σ : Type) (crypt : Option (DecFns σ)) (blocks : List (List Nat)) : List Nat :=
  match crypt with
  | none => (blocks.map (fun b => (chunksOf b).flatten)).flatten
  | some d => (blocks.map (decryptBlock σ d)).flatten

/-- The four shapes a `Content-Disposition` header takes in access-file.c:
attachment / inline crossed with the `filename*="utf-8' '<name>"` form versus
the plain `filename="<name>"` form. -/
inductive DispForm where
  | attachStar
  | attachPlain
  | inlineStar
  | inlinePlain
deriving DecidableEq, Repr

/-- ASCII lowercasing of one character (`g_string_ascii_down`). -/
def asciiLower (c : Char) : Char :=
  if 65 ≤ c.toNat ∧ c.toNat ≤ 90 then Char.ofNat (c.toNat + 32) else c

/-- Whether `pat` occurs at the start of `s`. -/
def listStartsWith : List Char → List Char → Bool
  | _, [] => true
  | [], _ :: _ => false
  | a :: as, b :: bs => a = b && listStartsWith as bs

/-- Whether `pat` occurs as a contiguous substring of `s` (`g_strrstr` is used
by the C code only for a NULL test, so occurrence is all that matters). -/
def containsSub : List Char → List Char → Bool
  | [], pat => pat.isEmpty
  | s@(_ :: rest), pat => listStartsWith s pat || containsSub rest pat

/-- Model of `test_firefox`: the `User-Agent` header, ASCII-lowercased,
contains `firefox`; a missing header yields `FALSE`. -/
def test_firefox (ua : Option (List Char)) : Bool :=
  match ua with
  | none => false
  | some s => containsSub (s.map asciiLower) (String.toList "firefox")

/-- The `Content-Disposition` choice of `do_file` (access-file.c lines
604-617): `download` and `download-link` always use
`attachment;filename*="utf-8' '<name>"`, every other operation uses `inline`
with the `filename*` form exactly when the user agent is Firefox. -/
def do_file_disposition (operation : String) (firefox : Bool) : DispForm :=
  if operation = "download" ∨ operation = "download-link" then DispForm.attachStar
  else if firefox then DispForm.inlineStar
  else DispForm.inlinePlain

/-- Model of `set_resp_disposition` (access-file.c lines 891-918), used by the
byte-range path: only `download` gets `attachment`, and the `filename*` form
is chosen exactly when the user agent is Firefox. -/
def set_resp_disposition (operation : String) (firefox : Bool) : DispForm :=
  if operation = "download" then
    if firefox then DispForm.attachStar else DispForm.attachPlain
  else
    if firefox then DispForm.inlineStar else DispForm.inlinePlain

/-- The static suffix-to-MIME table `ftmap` of access-file.c. -/
def ftmap : List (String × String) :=
  [("txt", "text/plain"),
   ("doc", "application/vnd.ms-word"),
   ("docx", "application/vnd.openxmlformats-officedocument.wordprocessingml.document"),
   ("ppt", "application/vnd.ms-powerpoint"),
   ("pptx", "application/vnd.openxmlformats-officedocument.presentationml.presentation"),
   ("xls", "application/vnd.ms-excel"),
   ("xlsx", "application/vnd.openxmlformats-officedocument.spreadsheetml.sheet"),
   ("pdf", "application/pdf"),
   ("zip", "application/zip"),
   ("mp3", "audio/mp3"),
   ("mpeg", "video/mpeg"),
   ("mp4", "video/mp4"),
   ("jpg", "image/jpeg"),
   ("JPG", "image/jpeg"),
   ("jpeg", "image/jpeg"),
   ("JPEG", "image/jpeg"),
   ("png", "image/png"),
   ("PNG", "image/png"),
   ("gif", "image/gif"),
   ("GIF", "image/gif"),
   ("svg", "image/svg+xml"),
   ("SVG", "image/svg+xml")]

/-- First-match lookup over the suffix table, mirroring the C scan order. -/
def ftlookup : List (String × String) → String → Option String
  | [], _ => none
  | (suf, ty) :: rest, p => if p = suf then some ty else ftlookup rest p

/-- The suffix after the last `.` of a filename (C `strrchr(filename, '.')`),
`none` when there is no dot. -/
def afterLastDot (s : List Char) : Option (List Char) :=
  if s.contains '.' then some ((s.reverse.takeWhile (fun c => c ≠ '.')).reverse)
  else none

/-- Model of `parse_content_type`: map the suffix after the last dot through
`ftmap`; `none` when there is no dot or the suffix is unknown. -/
def parse_content_type (filename : String) : Option String :=
  match afterLastDot filename.toList with
  | none => none
  | some suf => ftlookup ftmap (String.mk suf)

/-- Whether `do_file` / `do_file_range` add `X-Content-Type-Options: nosniff`:
the C condition is `g_strcmp0(type, "image/jpg") != 0`, with `type` the raw
`parse_content_type` result (possibly `NULL`). -/
def nosniffAdded (filename : String) : Bool :=
  match parse_content_type filename with
  | none => true
  | some t => if t = "image/jpg" then false else true

/-- File object resolved by the file-system manager: total size and the
ordered block contents (each block's bytes, as delivered by the block
manager's sequential reads). -/
structure FileObj where
  file_size : Nat
  blocks : List (List Nat)
deriving DecidableEq, Repr

/-- Result of a successful `do_file` call: the headers it emits, the body the
installed engine delivers, and the resource-release accounting of the chosen
return path (`fileReleased` — was `seafile_unref(file)` reached, either
directly or via `free_sendfile_data` at engine teardown; `cryptFreed` —
does no `SeafileCrypt` allocation survive the request). -/
structure DoFileResult where
  status : Nat
  contentLength : Nat
  disposition : DispForm
  nosniff : Bool
  body : List Nat
  engineInstalled : Bool
  fileReleased : Bool
  cryptFreed : Bool
deriving DecidableEq, Repr

/-- Model of `do_file` (access-file.c lines 539-672).  `none` models the `-1`
return (file object not found).  The HEAD branch and the empty-file branch
reply immediately; otherwise the streaming engine is installed and
`evhtp_send_reply_start(req, EVHTP_RES_OK)` begins a 200 response whose body
is produced by `write_data_cb`. -/
def do_file (σ : Type) (file : Option FileObj) (crypt : Option (DecFns σ))
    (operation : String) (ua : Option (List Char)) (filename : String)
    (isHead : Bool) : Option DoFileResult :=
  match file with
  | none => none
  | some f =>
    let disp := do_file_disposition operation (test_firefox ua)
    let ns := nosniffAdded filename
    if isHead then
      some { status := 200, contentLength := f.file_size, disposition := disp,
             nosniff := ns, body := [], engineInstalled := false,
             fileReleased := false, cryptFreed := crypt.isNone }
    else if f.blocks.length = 0 then
      some { status := 200, contentLength := f.file_size, disposition := disp,
             nosniff := ns, body := [], engineInstalled := false,
             fileReleased := true, cryptFreed := crypt.isNone }
    else
      some { status := 200, contentLength := f.file_size, disposition := disp,
             nosniff := ns, body := wholeBody σ crypt f.blocks,
             engineInstalled := true, fileReleased := true, cryptFreed := true }

/-- Model of `get_start_block_handle`: walk the block list accumulating sizes
until the block containing `start` is found, open it and discard the in-block
prefix.  Returns the remaining bytes of that block and the blocks after it;
`none` when `start` is at or beyond the end of the data. -/
def get_start_block_handle : List (List Nat) → Nat → Option (List Nat × List (List Nat))
  | [], _ => none
  | b :: bs, start =>
    if start < b.length then some (b.drop start, bs)
    else get_start_block_handle bs (start - b.length)

/-- The write-ready loop of `write_file_range_cb` after the start block is
open: each tick reads `min(range_remain, BUFFER_SIZE)` bytes from the current
block, a zero read closes the block and opens the next, and the loop finishes
when `range_remain` reaches zero.  Fuel-driven; `none` models the error path
(running past the last block). -/
def rangeLoopFuel : Nat → List (List Nat) → List Nat → Nat → Option (List (List Nat))
  | 0, _, _, _ => none
  | fuel + 1, blocks, handle, remain =>
    let bsize := min remain BUFFER_SIZE
    let n := min bsize handle.length
    if n = 0 then
      match blocks with
      | [] => none
      | b :: bs => rangeLoopFuel fuel bs b remain
    else if remain - n = 0 then some [handle.take n]
    else
      match rangeLoopFuel fuel blocks (handle.drop n) (remain - n) with
      | none => none
      | some cs => some (handle.take n :: cs)

/-- Full run of the byte-range engine: seek to the start offset with
`get_start_block_handle`, then stream until `range_remain` is zero.  Returns
the chunk sequence written to the socket. -/
def write_file_range_run (blocks : List (List Nat)) (start remain : Nat) :
    Option (List (List Nat)) :=
  match get_start_block_handle blocks start with
  | none => none
  | some (h, bs) => rangeLoopFuel (bs.length + remain + 1) bs h remain

/-- A 206 byte-range response: headers emitted by `do_file_range` and the
chunk sequence written by `write_file_range_cb` (`none` when the engine hits
the error path mid-stream).  `statFired` records whether the completion code
fired `send_statistic_msg`, i.e. whether `start_off + n >= file_size` held at
the tick where `range_remain` reached zero. -/
structure RangeResult where
  status : Nat
  acceptRanges : Bool
  contentLength : Nat
  contentRange : Nat × Nat × Nat
  disposition : DispForm
  nosniff : Bool
  chunks : Option (List (List Nat))
  statFired : Bool
deriving DecidableEq, Repr

/-- The possible outcomes of `do_file_range`. -/
inductive RangeOutcome where
  | serverErr
  | emptyOk
  | notSatisfiable (fsize : Nat)
  | rangeUB
  | content (r : RangeResult)
deriving DecidableEq, Repr

/-- Model of `do_file_range` (access-file.c lines 920-1037): resolve the file,
short-circuit empty files with 200, parse the `Range` header against
`file_size` (416 with `Content-Range: bytes */fsize` on failure), otherwise
emit the 206 headers and install `write_file_range_cb`. -/
def do_file_range (file : Option FileObj) (byteRanges : List Char)
    (operation : String) (ua : Option (List Char)) (filename : String) : RangeOutcome :=
  match file with
  | none => RangeOutcome.serverErr
  | some f =>
    if f.blocks.length = 0 then RangeOutcome.emptyOk
    else
      match parse_range_val byteRanges f.file_size with
      | ParseOutcome.ub => RangeOutcome.rangeUB
      | ParseOutcome.invalid => RangeOutcome.notSatisfiable f.file_size
      | ParseOutcome.ok s e =>
        let cs := write_file_range_run f.blocks s (e - s + 1)
        RangeOutcome.content
          { status := 206, acceptRanges := true,
            contentLength := e - s + 1,
            contentRange := (s, e, f.file_size),
            disposition := set_resp_disposition operation (test_firefox ua),
            nosniff := nosniffAdded filename,
            chunks := cs,
            statFired :=
              match cs with
              | some l => decide (f.file_size ≤ s + ((l.getLast?).getD []).length)
              | none => false }

/-- The fields of a web-access token record consumed by the handlers. -/
structure WebAccessRec where
  op : String
  username : String
deriving DecidableEq, Repr

/-- The repository fields consumed by `access_cb`. -/
structure RepoRec where
  encrypted : Bool
deriving DecidableEq, Repr

/-- The external collaborators of `access_cb` for one request, plus the parts
of the request it reads: token-manager lookup result, `If-Modified-Since`
presence, the raw `Range` header, the `User-Agent`, the request method, the
repo-manager lookup, the decryption-key lookup (bundled with the behavior of
the EVP primitives for that key), object existence, and the file object. -/
structure FilesEnv (σ : Type) where
  webaccess : Option WebAccessRec
  imsPresent : Bool
  rangeHeader : Option (List Char)
  ua : Option (List Char)
  isHead : Bool
  repo : Option RepoRec
  key : Option (DecFns σ)
  objExists : Bool
  file : Option FileObj

/-- Outcome of the `/files` dispatcher. -/
inductive FilesOutcome where
  | errorReply (status : Nat)
  | notModified
  | whole (r : DoFileResult)
  | ranged (r : RangeOutcome)
deriving DecidableEq, Repr

/-- Model of `access_cb` (access-file.c lines 1251-1360): URL shape check,
token lookup, operation-kind enforcement, `If-Modified-Since` short-circuit,
repo lookup, decryption-key fetch for encrypted repos, object-existence
check, then dispatch — byte-range mode only when the repo is NOT encrypted
and a `Range` header is present, whole-file mode otherwise. -/
def access_cb (σ : Type) (parts : List String) (env : FilesEnv σ) : FilesOutcome :=
  if parts.length < 3 ∨ parts.headD "" ≠ "files" then FilesOutcome.errorReply 400
  else
    match env.webaccess with
    | none => FilesOutcome.errorReply 403
    | some w =>
      if w.op ≠ "view" ∧ w.op ≠ "download" ∧ w.op ≠ "download-link" then
        FilesOutcome.errorReply 403
      else if env.imsPresent then FilesOutcome.notModified
      else
        match env.repo with
        | none => FilesOutcome.errorReply 400
        | some repo =>
          if repo.encrypted ∧ env.key.isNone then FilesOutcome.errorReply 400
          else if env.objExists = false then FilesOutcome.errorReply 400
          else if repo.encrypted = false ∧ env.rangeHeader.isSome then
            match do_file_range env.file (env.rangeHeader.getD []) w.op env.ua
                (parts.getD 2 "") with
            | RangeOutcome.serverErr => FilesOutcome.errorReply 500
            | r => FilesOutcome.ranged r
          else
            match do_file σ env.file (if repo.encrypted then env.key else none) w.op
                env.ua (parts.getD 2 "") env.isHead with
            | none => FilesOutcome.errorReply 500
            | some r => FilesOutcome.whole r

/-- File object as seen by `do_block`: the ordered block-id list. -/
structure BlkFile where
  blkIds : List String
deriving DecidableEq, Repr

/-- Outcome of `do_block`. -/
inductive BlkOutcome where
  | notFound400
  | streamBlock (contentLength : Nat)
deriving DecidableEq, Repr

/-- Model of `do_block` (access-file.c lines 1362-1451): scan the file's block
list for a 40-byte id match (`memcmp(..., 40)`), stat the block, reply 400
when the block is not found (or not statable), otherwise install the block
engine with `Content-Length` equal to the block size.  `none` models the `-1`
return (file object not found). -/
def do_block (file : Option BlkFile) (blkId : String) (statSize : String → Option Nat) :
    Option BlkOutcome :=
  match file with
  | none => none
  | some f =>
    match f.blkIds.find? (fun bid => decide (bid.toList.take 40 = blkId.toList.take 40)) with
    | none => some BlkOutcome.notFound400
    | some _ =>
      match statSize blkId with
      | none => some BlkOutcome.notFound400
      | some sz => some (BlkOutcome.streamBlock sz)

/-- External collaborators and request data for `access_blks_cb`. -/
structure BlksEnv where
  webaccess : Option WebAccessRec
  imsPresent : Bool
  repoFound : Bool
  objExists : Bool
  file : Option BlkFile
  statSize : String → Option Nat

/-- Outcome of the `/blks` dispatcher.  `noReply` is the path that falls
through to the `success:` label without ever sending a response. -/
inductive BlksOutcome where
  | errorReply (status : Nat)
  | notModified
  | blockNotFound
  | streamBlock (contentLength : Nat)
  | noReply
deriving DecidableEq, Repr

/-- Model of `access_blks_cb` (access-file.c lines 1453-1535): URL check,
token lookup, `If-Modified-Since` short-circuit, repo lookup, object
existence, then — only when the operation is `downloadblks` — `do_block`.
Any other operation reaches the `success:` label without a reply. -/
def access_blks_cb (parts : List String) (env : BlksEnv) : BlksOutcome :=
  if parts.length < 3 ∨ parts.headD "" ≠ "blks" then BlksOutcome.errorReply 400
  else
    match env.webaccess with
    | none => BlksOutcome.errorReply 403
    | some w =>
      if env.imsPresent then BlksOutcome.notModified
      else if env.repoFound = false then BlksOutcome.errorReply 400
      else if env.objExists = false then BlksOutcome.errorReply 400
      else if w.op = "downloadblks" then
        match do_block env.file (parts.getD 2 "") env.statSize with
        | none => BlksOutcome.errorReply 500
        | some BlkOutcome.notFound400 => BlksOutcome.errorReply 400
        | some (BlkOutcome.streamBlock sz) => BlksOutcome.streamBlock sz
      else BlksOutcome.noReply

/-- Projection: the `statFired` flag of a 206 range response. -/
def statFiredOf : RangeOutcome → Option Bool
  | RangeOutcome.content r => some r.statFired
  | _ => none

/-- Projection: the `Content-Range` triple of a 206 range response. -/
def contentRangeOf : RangeOutcome → Option (Nat × Nat × Nat)
  | RangeOutcome.content r => some r.contentRange
  | _ => none

/-- Value of a digit string read most-significant-first. -/
def digitsToNat (ds : List Char) : Nat :=
  ds.foldl (fun a c => a * 10 + digitVal c) 0

/-- Sample unencrypted file used by concrete witnesses: three blocks, five bytes. -/
def sampleFileU : FileObj :=
  { file_size := 5, blocks := [[1, 2], [3], [4, 5]] }

/-- Sample four-byte file with two blocks, used by range witnesses. -/
def sampleFile4 : FileObj :=
  { file_size := 4, blocks := [[1, 2], [3, 4]] }

/-- Sample decryption primitive over the trivial state (identity transform). -/
def sampleDec : DecFns Unit :=
  { init := (), upd := fun _ c => ((), c), fin := fun _ => [] }

/-- Flattening the 64 KiB chunking of a list recovers the list (fueled form). -/
theorem chunksOfFuel_flatten : ∀ (fuel : Nat) (l : List Nat), l.length < fuel →
    (chunksOfFuel fuel l).flatten = l := by
  intro fuel
  induction fuel with
  | zero => intro l h; omega
  | succ f ih =>
    intro l h
    by_cases hl : l = []
    · subst hl; simp [chunksOfFuel]
    · have hlen : 1 ≤ l.length := by
        rcases l with _ | ⟨a, as⟩
        · exact absurd rfl hl
        · simp
      have hb : 1 ≤ BUFFER_SIZE := by norm_num [BUFFER_SIZE]
      have hrec : (l.drop BUFFER_SIZE).length < f := by
        rw [List.length_drop]; omega
      simp only [chunksOfFuel, if_neg hl, List.flatten_cons]
      rw [ih _ hrec, List.take_append_drop]

/-- Flattening the 64 KiB chunking of a list recovers the list. -/
theorem chunksOf_flatten (l : List Nat) : (chunksOf l).flatten = l :=
  chunksOfFuel_flatten _ l (Nat.lt_succ_self _)

/-- The unencrypted whole-file engine delivers the concatenation of the
blocks in order. -/
theorem wholeBody_none (σ : Type) (blocks : List (List Nat)) :
    wholeBody σ none blocks = blocks.flatten := by
  simp only [wholeBody]
  induction blocks with
  | nil => simp
  | cons b bs ih =>
    rw [List.map_cons, List.flatten_cons, chunksOf_flatten, ih, List.flatten_cons]

/-- `get_start_block_handle` lands on the block containing `start` and the
bytes it leaves to read are exactly the file content from offset `start`. -/
theorem get_start_block_handle_spec : ∀ (blocks : List (List Nat)) (start : Nat),
    start < blocks.flatten.length →
    ∃ h bs, get_start_block_handle blocks start = some (h, bs) ∧
      h ++ bs.flatten = blocks.flatten.drop start := by
  intro blocks
  induction blocks with
  | nil => intro start h; simp at h
  | cons b bs ih =>
    intro start hs
    by_cases hlt : start < b.length
    · refine ⟨b.drop start, bs, ?_, ?_⟩
      · simp [get_start_block_handle, hlt]
      · rw [List.flatten_cons, List.drop_append_eq_append_drop]
        have h0 : start - b.length = 0 := by omega
        rw [h0, List.drop_zero]
    · have hs' : start - b.length < bs.flatten.length := by
        rw [List.flatten_cons, List.length_append] at hs; omega
      obtain ⟨h, bs', he, hev⟩ := ih (start - b.length) hs'
      refine ⟨h, bs', ?_, ?_⟩
      · simp [get_start_block_handle, hlt, he]
      · rw [List.flatten_cons, List.drop_append_eq_append_drop,
          List.drop_eq_nil_of_le (by omega : b.length ≤ start), hev, List.nil_append]

/-- One-step unfolding of the fueled range-write loop. -/
theorem rangeLoopFuel_succ (f : Nat) (blocks : List (List Nat)) (handle : List Nat)
    (remain : Nat) :
    rangeLoopFuel (f + 1) blocks handle remain =
      if min (min remain BUFFER_SIZE) handle.length = 0 then
        match blocks with
        | [] => none
        | b :: bs => rangeLoopFuel f bs b remain
      else if remain - min (min remain BUFFER_SIZE) handle.length = 0 then
        some [handle.take (min (min remain BUFFER_SIZE) handle.length)]
      else
        match rangeLoopFuel f blocks
            (handle.drop (min (min remain BUFFER_SIZE) handle.length))
            (remain - min (min remain BUFFER_SIZE) handle.length) with
        | none => none
        | some cs => some (handle.take (min (min remain BUFFER_SIZE) handle.length) :: cs) :=
  rfl

/-- Specification of the fueled write loop of `write_file_range_cb`: with
enough fuel and enough data, it succeeds, the chunks concatenate to exactly
the first `remain` bytes of the unread data, and every chunk is nonempty. -/
theorem rangeLoopFuel_spec : ∀ (fuel : Nat) (blocks : List (List Nat)) (handle : List Nat)
    (remain : Nat), blocks.length + remain < fuel → 1 ≤ remain →
    remain ≤ handle.length + blocks.flatten.length →
    ∃ cs, rangeLoopFuel fuel blocks handle remain = some cs ∧
      cs.flatten = (handle ++ blocks.flatten).take remain ∧
      (∀ c ∈ cs, c ≠ []) ∧ cs ≠ [] := by
  intro fuel
  induction fuel with
  | zero => intro _ _ _ hf _ _; omega
  | succ f ih =>
    intro blocks handle remain hf h1 h2
    have hb : 1 ≤ BUFFER_SIZE := by norm_num [BUFFER_SIZE]
    rw [rangeLoopFuel_succ]
    set n := min (min remain BUFFER_SIZE) handle.length with hn
    by_cases hn0 : n = 0
    · -- a zero-byte read: the current block is exhausted, move to the next
      rw [if_pos hn0]
      have hh0 : handle.length = 0 := by omega
      have hhe : handle = [] := List.eq_nil_of_length_eq_zero hh0
      subst hhe
      rcases blocks with _ | ⟨b, bs⟩
      · simp only [List.flatten_nil, List.length_nil, List.length_nil] at h2; omega
      · have hf' : bs.length + remain < f := by
          simp only [List.length_cons] at hf; omega
        have h2' : remain ≤ b.length + bs.flatten.length := by
          simp only [List.length_nil, List.flatten_cons, List.length_append] at h2; omega
        obtain ⟨cs, hcs, hfl, hne, hcne⟩ := ih bs b remain hf' h1 h2'
        refine ⟨cs, hcs, ?_, hne, hcne⟩
        rw [hfl, List.nil_append, List.flatten_cons]
    · -- a nonzero read of n bytes
      have hn1 : 1 ≤ n := by omega
      have hnh : n ≤ handle.length := by omega
      have hnr : n ≤ remain := by omega
      have htne : handle.take n ≠ [] := by
        intro hc
        have hlen := congrArg List.length hc
        rw [List.length_take, List.length_nil] at hlen
        omega
      by_cases hlast : remain - n = 0
      · -- range_remain reaches 0 on this tick
        rw [if_neg hn0, if_pos hlast]
        have hreq : n = remain := by omega
        have htake2 : (handle ++ blocks.flatten).take remain = handle.take remain := by
          rw [List.take_append_eq_append_take]
          have h0 : remain - handle.length = 0 := by omega
          rw [h0, List.take_zero, List.append_nil]
        refine ⟨[handle.take n], rfl, ?_, ?_, by simp⟩
        · rw [List.flatten_cons, List.flatten_nil, List.append_nil, hreq, htake2]
        · intro c hc
          have hc1 := List.mem_singleton.mp hc
          subst hc1
          exact htne
      · -- more bytes remain after this tick
        rw [if_neg hn0, if_neg hlast]
        have hf' : blocks.length + (remain - n) < f := by omega
        have h2' : remain - n ≤ (handle.drop n).length + blocks.flatten.length := by
          rw [List.length_drop]; omega
        obtain ⟨cs, hcs, hfl, hne, _⟩ := ih blocks (handle.drop n) (remain - n) hf'
          (by omega) h2'
        rw [hcs]
        refine ⟨handle.take n :: cs, rfl, ?_, ?_, by simp⟩
        · rw [List.flatten_cons, hfl]
          have hsplit : remain = n + (remain - n) := by omega
          conv_rhs => rw [hsplit, List.take_add]
          congr 1
          · rw [List.take_append_eq_append_take]
            have h0 : n - handle.length = 0 := by omega
            rw [h0, List.take_zero, List.append_nil]
          · rw [List.drop_append_eq_append_drop]
            have h0 : n - handle.length = 0 := by omega
            rw [h0, List.drop_zero]
        · intro c hc
          rcases List.mem_cons.mp hc with hc1 | hc2
          · subst hc1; exact htne
          · exact hne c hc2

/-- A digit character is not whitespace. -/
theorem digit_not_space (c : Char) (h : isDigitC c = true) : isSpaceC c = false := by
  simp only [isDigitC, Bool.and_eq_true, decide_eq_true_eq] at h
  simp only [isSpaceC, Bool.or_eq_false_iff, decide_eq_false_iff_not]
  omega

/-- A digit character is not the minus sign. -/
theorem digit_ne_minus (c : Char) (h : isDigitC c = true) : c ≠ '-' := by
  intro hc; subst hc
  simp [isDigitC] at h

/-- A digit character is not the plus sign. -/
theorem digit_ne_plus (c : Char) (h : isDigitC c = true) : c ≠ '+' := by
  intro hc; subst hc
  simp [isDigitC] at h

/-- `grabDigits` consumes exactly a leading all-digit run. -/
theorem grabDigits_append (ds rest : List Char) (hd : ∀ c ∈ ds, isDigitC c = true)
    (hr : ∀ c, rest.head? = some c → isDigitC c = false) :
    ∀ acc, grabDigits (ds ++ rest) acc =
      (ds.foldl (fun a c => a * 10 + digitVal c) acc, ds.length) := by
  induction ds with
  | nil =>
    intro acc
    rcases rest with _ | ⟨c, cs⟩
    · simp [grabDigits]
    · have hnd := hr c rfl
      simp [grabDigits, hnd]
  | cons c cs ih =>
    intro acc
    have hc := hd c (by simp)
    rw [List.cons_append]
    simp only [grabDigits, hc, if_true]
    rw [ih (fun x hx => hd x (by simp [hx])) (acc * 10 + digitVal c)]
    simp [List.foldl_cons]

/-- `strtollModel` on a nonempty digit run followed by a non-digit (or
nothing): positive value, saturated at `LLONG_MAX`, stopping after the run. -/
theorem strtollModel_digits (ds rest : List Char) (hne : ds ≠ [])
    (hd : ∀ c ∈ ds, isDigitC c = true)
    (hr : ∀ c, rest.head? = some c → isDigitC c = false) :
    strtollModel (ds ++ rest) = ((false, min (digitsToNat ds) LLMAXn), ds.length) := by
  obtain ⟨d, ds', rfl⟩ : ∃ d ds', ds = d :: ds' := by
    rcases ds with _ | ⟨d, ds'⟩
    · exact absurd rfl hne
    · exact ⟨d, ds', rfl⟩
  have hdd := hd d (by simp)
  have hsp := digit_not_space d hdd
  have hmn := digit_ne_minus d hdd
  have hpl := digit_ne_plus d hdd
  have hgrab := grabDigits_append (d :: ds') rest hd hr 0
  simp only [strtollModel, List.cons_append, List.takeWhile_cons, hsp, Bool.false_eq_true,
    if_false, List.length_nil, List.dropWhile_cons, List.head?_cons, Option.some.injEq,
    hmn, hpl, or_self, if_false, List.drop_zero]
  rw [List.cons_append] at hgrab
  rw [hgrab]
  have hcnt : (d :: ds').length ≠ 0 := by simp
  simp only [hcnt, if_false, Nat.zero_add]
  rfl

/-- `strtollModel` on a minus sign followed by a nonempty digit run reaching
the end of the string: negative value, saturated at `LLONG_MIN`. -/
theorem strtollModel_neg_digits (ds : List Char) (hne : ds ≠ [])
    (hd : ∀ c ∈ ds, isDigitC c = true) :
    strtollModel ('-' :: ds) = ((true, min (digitsToNat ds) LLMINmag), 1 + ds.length) := by
  have hsp : isSpaceC '-' = false := by decide
  have hgrab := grabDigits_append ds [] hd (by intro c hc; simp at hc) 0
  rw [List.append_nil] at hgrab
  have hcnt : ds.length ≠ 0 := by
    intro h0
    exact hne (List.eq_nil_of_length_eq_zero h0)
  simp only [strtollModel, List.takeWhile_cons, hsp, Bool.false_eq_true, if_false,
    List.length_nil, List.dropWhile_cons, List.head?_cons, Option.some.injEq]
  simp only [true_or, if_true, List.drop_succ_cons, List.drop_zero, hgrab, hcnt,
    if_false, Nat.zero_add]
  rfl

/-- `strchrIdx` returns `none` when the character does not occur. -/
theorem strchrIdx_none (c : Char) : ∀ (l : List Char), (∀ a ∈ l, a ≠ c) →
    strchrIdx c l = none := by
  intro l
  induction l with
  | nil => intro _; rfl
  | cons a t ih =>
    intro h
    have ha : a ≠ c := h a (by simp)
    simp only [strchrIdx, ha, if_false]
    rw [ih (fun x hx => h x (by simp [hx]))]
    rfl

/-- `strchrIdx` finds the first occurrence just after a clean prefix. -/
theorem strchrIdx_append_cons (c : Char) : ∀ (ds rest : List Char), (∀ a ∈ ds, a ≠ c) →
    strchrIdx c (ds ++ c :: rest) = some ds.length := by
  intro ds
  induction ds with
  | nil => intro rest _; simp [strchrIdx]
  | cons a t ih =>
    intro rest h
    have ha : a ≠ c := h a (by simp)
    rw [List.cons_append]
    simp only [strchrIdx, ha, if_false]
    rw [ih rest (fun x hx => h x (by simp [hx]))]
    simp

/-- An all-digit run contains no minus sign. -/
theorem digits_no_minus (ds : List Char) (hd : ∀ c ∈ ds, isDigitC c = true) :
    ∀ a ∈ ds, a ≠ '-' :=
  fun a ha => digit_ne_minus a (hd a ha)

/-- Lift a `parse_range_core` success through `parse_range_val`'s clamp. -/
theorem parse_range_val_of_core (s tmp : List Char) (fsize st en : Nat)
    (ha : afterChar '=' s = some tmp)
    (hc : parse_range_core tmp fsize = some (st, en)) :
    parse_range_val s fsize =
      (if (if (fsize + U64 - 1) % U64 < en then (fsize + U64 - 1) % U64 else en) < st
       then ParseOutcome.invalid
       else ParseOutcome.ok st
         (if (fsize + U64 - 1) % U64 < en then (fsize + U64 - 1) % U64 else en)) := by
  simp only [parse_range_val, ha, hc]

/-- Lift a `parse_range_core` failure through `parse_range_val`. -/
theorem parse_range_val_of_core_none (s tmp : List Char) (fsize : Nat)
    (ha : afterChar '=' s = some tmp)
    (hc : parse_range_core tmp fsize = none) :
    parse_range_val s fsize = ParseOutcome.invalid := by
  simp only [parse_range_val, ha, hc]

/-- Positive `long long` values below the saturation bound convert to `guint64` unchanged. -/
theorem u64OfLL_pos (m : Nat) (h : m ≤ LLMAXn) : u64OfLL (false, m) = m := by
  simp only [u64OfLL]
  apply Nat.mod_eq_of_lt
  simp only [LLMAXn] at h
  simp only [U64]
  omega

theorem parse_range_core_neg (ds : List Char) (fsize : Nat) (hne : ds ≠ [])
    (hd : ∀ c ∈ ds, isDigitC c = true) (h1 : 1 ≤ digitsToNat ds)
    (h3 : digitsToNat ds ≤ LLMAXn) :
    parse_range_core ('-' :: ds) fsize =
      some ((U64 - digitsToNat ds + fsize) % U64, (fsize + U64 - 1) % U64) := by
  have hmin : min (digitsToNat ds) LLMINmag = digitsToNat ds := by
    simp only [LLMAXn] at h3
    simp only [LLMINmag]
    omega
  have hst := strtollModel_neg_digits ds hne hd
  rw [hmin] at hst
  have hidx : strchrIdx '-' ('-' :: ds) = some 0 := by simp [strchrIdx]
  have hstart : u64OfLL (true, digitsToNat ds) = U64 - digitsToNat ds := by
    simp only [u64OfLL]
    apply Nat.mod_eq_of_lt
    simp only [LLMAXn] at h3
    simp only [U64] at *
    omega
  have hsne : U64 - digitsToNat ds ≠ 0 := by
    simp only [LLMAXn] at h3
    simp only [U64]
    omega
  have hlen : 1 + ds.length = ('-' :: ds).length := by simp [Nat.add_comm]
  simp only [parse_range_core, hidx, if_pos rfl, hst, hstart, hsne, if_false, hlen]
  simp

theorem parse_range_core_num_dash (ds : List Char) (fsize : Nat) (hne : ds ≠ [])
    (hd : ∀ c ∈ ds, isDigitC c = true) (h3 : digitsToNat ds ≤ LLMAXn) :
    parse_range_core (ds ++ ['-']) fsize =
      some (digitsToNat ds, (fsize + U64 - 1) % U64) := by
  have hidx : strchrIdx '-' (ds ++ ['-']) = some ds.length :=
    strchrIdx_append_cons '-' ds [] (digits_no_minus ds hd)
  have hst := strtollModel_digits ds ['-'] hne hd
    (by intro c hc; simp at hc; subst hc; decide)
  have hmin : min (digitsToNat ds) LLMAXn = digitsToNat ds := by omega
  rw [hmin] at hst
  have hstart := u64OfLL_pos (digitsToNat ds) h3
  have hm0 : ds.length ≠ 0 := fun h0 => hne (List.eq_nil_of_length_eq_zero h0)
  have hmi1 : ds.length + 1 = (ds ++ ['-']).length := by simp
  simp only [parse_range_core, hidx, hm0, if_false, hmi1, hst, hstart]
  simp

theorem parse_range_core_num_num (ds1 ds2 : List Char) (fsize : Nat)
    (hne1 : ds1 ≠ []) (hne2 : ds2 ≠ [])
    (hd1 : ∀ c ∈ ds1, isDigitC c = true) (hd2 : ∀ c ∈ ds2, isDigitC c = true)
    (h31 : digitsToNat ds1 ≤ LLMAXn) (h32 : digitsToNat ds2 ≤ LLMAXn) :
    parse_range_core (ds1 ++ '-' :: ds2) fsize =
      some (digitsToNat ds1, digitsToNat ds2) := by
  have hidx := strchrIdx_append_cons '-' ds1 ds2 (digits_no_minus ds1 hd1)
  have hst1 := strtollModel_digits ds1 ('-' :: ds2) hne1 hd1
    (by intro c hc; simp at hc; subst hc; decide)
  have hst2 := strtollModel_digits ds2 [] hne2 hd2 (by intro c hc; simp at hc)
  rw [List.append_nil] at hst2
  have hmin1 : min (digitsToNat ds1) LLMAXn = digitsToNat ds1 := by omega
  have hmin2 : min (digitsToNat ds2) LLMAXn = digitsToNat ds2 := by omega
  rw [hmin1] at hst1
  rw [hmin2] at hst2
  have hstart1 := u64OfLL_pos (digitsToNat ds1) h31
  have hstart2 := u64OfLL_pos (digitsToNat ds2) h32
  have hm0 : ds1.length ≠ 0 := fun h0 => hne1 (List.eq_nil_of_length_eq_zero h0)
  have hlne : ds1.length + 1 ≠ (ds1 ++ '-' :: ds2).length := by
    have h2l : ds2.length ≠ 0 := fun h0 => hne2 (List.eq_nil_of_length_eq_zero h0)
    simp only [List.length_append, List.length_cons]
    omega
  have hdrop : (ds1 ++ '-' :: ds2).drop (ds1.length + 1) = ds2 := by
    rw [show ds1 ++ '-' :: ds2 = (ds1 ++ ['-']) ++ ds2 by simp,
      show ds1.length + 1 = (ds1 ++ ['-']).length by simp,
      List.drop_left]
  simp only [parse_range_core, hidx, hm0, if_false, hlne, hdrop, hst1, hst2, hstart1, hstart2]
  simp

/-- Acceptance of the `-N` range form. -/
theorem parse_range_val_neg_form (s ds : List Char) (fsize : Nat)
    (ha : afterChar '=' s = some ('-' :: ds))
    (hne : ds ≠ []) (hd : ∀ c ∈ ds, isDigitC c = true)
    (h1 : 1 ≤ digitsToNat ds) (h2 : digitsToNat ds ≤ fsize) (h3 : digitsToNat ds ≤ LLMAXn)
    (hfU : fsize < U64) :
    parse_range_val s fsize = ParseOutcome.ok (fsize - digitsToNat ds) (fsize - 1) := by
  have hcore := parse_range_core_neg ds fsize hne hd h1 h3
  have hval := parse_range_val_of_core s ('-' :: ds) fsize _ _ ha hcore
  rw [hval]
  simp only [LLMAXn] at h3
  simp only [U64] at hfU ⊢
  have hmod1 : (2 ^ 64 - digitsToNat ds + fsize) % 2 ^ 64 = fsize - digitsToNat ds := by
    omega
  have hmod2 : (fsize + 2 ^ 64 - 1) % 2 ^ 64 = fsize - 1 := by omega
  rw [hmod1, hmod2]
  rw [if_neg (lt_irrefl _), if_neg (by omega)]

theorem parse_range_val_num_dash_form (s ds : List Char) (fsize : Nat)
    (ha : afterChar '=' s = some (ds ++ ['-']))
    (hne : ds ≠ []) (hd : ∀ c ∈ ds, isDigitC c = true)
    (h2 : digitsToNat ds < fsize) (h3 : digitsToNat ds ≤ LLMAXn) (hfU : fsize < U64) :
    parse_range_val s fsize = ParseOutcome.ok (digitsToNat ds) (fsize - 1) := by
  have hcore := parse_range_core_num_dash ds fsize hne hd h3
  have hval := parse_range_val_of_core s (ds ++ ['-']) fsize _ _ ha hcore
  rw [hval]
  simp only [U64] at hfU ⊢
  have hmod2 : (fsize + 2 ^ 64 - 1) % 2 ^ 64 = fsize - 1 := by omega
  rw [hmod2]
  rw [if_neg (lt_irrefl _), if_neg (by omega)]

theorem parse_range_val_num_num_form (s ds1 ds2 : List Char) (fsize : Nat)
    (ha : afterChar '=' s = some (ds1 ++ '-' :: ds2))
    (hne1 : ds1 ≠ []) (hne2 : ds2 ≠ [])
    (hd1 : ∀ c ∈ ds1, isDigitC c = true) (hd2 : ∀ c ∈ ds2, isDigitC c = true)
    (hle : digitsToNat ds1 ≤ digitsToNat ds2) (h2 : digitsToNat ds1 < fsize)
    (h32 : digitsToNat ds2 ≤ LLMAXn) (hfU : fsize < U64) :
    parse_range_val s fsize =
      ParseOutcome.ok (digitsToNat ds1) (min (digitsToNat ds2) (fsize - 1)) := by
  have h31 : digitsToNat ds1 ≤ LLMAXn := le_trans hle h32
  have hcore := parse_range_core_num_num ds1 ds2 fsize hne1 hne2 hd1 hd2 h31 h32
  have hval := parse_range_val_of_core s (ds1 ++ '-' :: ds2) fsize _ _ ha hcore
  rw [hval]
  simp only [U64] at hfU ⊢
  have hmod2 : (fsize + 2 ^ 64 - 1) % 2 ^ 64 = fsize - 1 := by omega
  rw [hmod2]
  have hite : (if fsize - 1 < digitsToNat ds2 then fsize - 1 else digitsToNat ds2) =
      min (digitsToNat ds2) (fsize - 1) := by
    split <;> omega
  rw [hite, if_neg (by omega)]

theorem parse_range_val_ok_bounds (s : List Char) (fsize st en : Nat)
    (hf1 : 1 ≤ fsize) (hfU : fsize < U64)
    (h : parse_range_val s fsize = ParseOutcome.ok st en) : st ≤ en ∧ en < fsize := by
  rcases hae : afterChar '=' s with _ | tmp
  · simp only [parse_range_val, hae] at h
    exact ParseOutcome.noConfusion h
  · simp only [parse_range_val, hae] at h
    rcases hc : parse_range_core tmp fsize with _ | ⟨st0, en0⟩
    · rw [hc] at h; simp at h
    · rw [hc] at h
      simp only at h
      simp only [U64] at hfU
      have hfm : (fsize + U64 - 1) % U64 = fsize - 1 := by
        simp only [U64]; omega
      rw [hfm] at h
      by_cases hclamp : fsize - 1 < en0
      · rw [if_pos hclamp] at h
        by_cases hst : fsize - 1 < st0
        · rw [if_pos hst] at h; exact absurd h (by simp)
        · rw [if_neg hst] at h
          have := ParseOutcome.ok.injEq st0 (fsize - 1) st en
          rw [this] at h
          omega
      · rw [if_neg hclamp] at h
        by_cases hst : en0 < st0
        · rw [if_pos hst] at h; exact absurd h (by simp)
        · rw [if_neg hst] at h
          have := ParseOutcome.ok.injEq st0 en0 st en
          rw [this] at h
          omega

theorem parse_range_val_no_minus (s tmp : List Char) (fsize : Nat)
    (ha : afterChar '=' s = some tmp) (h : ∀ a ∈ tmp, a ≠ '-') :
    parse_range_val s fsize = ParseOutcome.invalid :=
  parse_range_val_of_core_none s tmp fsize ha (by
    simp only [parse_range_core, strchrIdx_none '-' tmp h])

/-- Full engine run for a valid in-bounds range: the written chunks
concatenate to exactly bytes `s .. e` of the file content, and every chunk
is nonempty. -/
theorem write_file_range_run_spec (blocks : List (List Nat)) (s e : Nat)
    (hse : s ≤ e) (hef : e < blocks.flatten.length) :
    ∃ cs, write_file_range_run blocks s (e - s + 1) = some cs ∧
      cs.flatten = (blocks.flatten.drop s).take (e - s + 1) ∧
      (∀ c ∈ cs, c ≠ []) ∧ cs ≠ [] := by
  have hs : s < blocks.flatten.length := by omega
  obtain ⟨h, bs, hseek, hdata⟩ := get_start_block_handle_spec blocks s hs
  have hlen : h.length + bs.flatten.length = blocks.flatten.length - s := by
    have hl := congrArg List.length hdata
    rw [List.length_append, List.length_drop] at hl
    omega
  obtain ⟨cs, hcs, hfl, hne, hcne⟩ := rangeLoopFuel_spec (bs.length + (e - s + 1) + 1)
    bs h (e - s + 1) (by omega) (by omega) (by omega)
  refine ⟨cs, ?_, ?_, hne, hcne⟩
  · simp only [write_file_range_run, hseek]
    exact hcs
  · rw [hfl, hdata]

/-- A member's length is at most the length of the concatenation. -/
theorem mem_length_le_flatten (cs : List (List Nat)) (c : List Nat) (hc : c ∈ cs) :
    c.length ≤ cs.flatten.length := by
  induction cs with
  | nil => simp at hc
  | cons a t ih =>
    rw [List.flatten_cons, List.length_append]
    rcases List.mem_cons.mp hc with h1 | h2
    · subst h1; omega
    · have := ih h2; omega

/-- The last element of a nonempty list is a member. -/
theorem getLastD_mem (cs : List (List Nat)) (hne : cs ≠ []) :
    (cs.getLast?.getD []) ∈ cs := by
  induction cs with
  | nil => exact absurd rfl hne
  | cons a t ih =>
    rcases t with _ | ⟨b, t2⟩
    · simp [List.getLast?]
    · rw [List.getLast?_cons_cons]
      exact List.mem_cons_of_mem a (ih (by simp))

/-- For a nonempty list of nonempty chunks, the final chunk carries the whole
payload iff there is exactly one chunk. -/
theorem last_chunk_full_iff (cs : List (List Nat)) (hcne : cs ≠ [])
    (hne : ∀ c ∈ cs, c ≠ []) :
    (cs.getLast?.getD []).length = cs.flatten.length ↔ cs.length = 1 := by
  induction cs with
  | nil => exact absurd rfl hcne
  | cons a t ih =>
    rcases t with _ | ⟨b, t2⟩
    · simp [List.getLast?]
    · have ha : a ≠ [] := hne a (by simp)
      have hal : 1 ≤ a.length := by
        rcases a with _ | ⟨x, xs⟩
        · exact absurd rfl ha
        · simp
      have hlast : ((b :: t2).getLast?.getD []) ∈ b :: t2 := getLastD_mem _ (by simp)
      have hle := mem_length_le_flatten (b :: t2) _ hlast
      rw [List.getLast?_cons_cons, List.flatten_cons, List.length_append]
      simp only [List.length_cons]
      constructor
      · intro h; omega
      · intro h; omega

/-- A successful `ftlookup` returns a value from the table. -/
theorem ftlookup_mem : ∀ (l : List (String × String)) (p t : String),
    ftlookup l p = some t → t ∈ l.map Prod.snd := by
  intro l
  induction l with
  | nil => intro p t h; exact Option.noConfusion h
  | cons a rest ih =>
    intro p t h
    rcases a with ⟨suf, ty⟩
    by_cases hp : p = suf
    · rw [ftlookup, if_pos hp] at h
      injection h with h
      subst h
      simp
    · rw [ftlookup, if_neg hp] at h
      exact List.mem_cons_of_mem _ (ih p t h)

theorem do_file_range_content (f : FileObj) (byteRanges : List Char) (operation : String)
    (ua : Option (List Char)) (filename : String) (s e : Nat)
    (hnb : f.blocks.length ≠ 0)
    (hp : parse_range_val byteRanges f.file_size = ParseOutcome.ok s e) :
    do_file_range (some f) byteRanges operation ua filename =
      RangeOutcome.content
        { status := 206, acceptRanges := true, contentLength := e - s + 1,
          contentRange := (s, e, f.file_size),
          disposition := set_resp_disposition operation (test_firefox ua),
          nosniff := nosniffAdded filename,
          chunks := write_file_range_run f.blocks s (e - s + 1),
          statFired := match write_file_range_run f.blocks s (e - s + 1) with
            | some l => decide (f.file_size ≤ s + ((l.getLast?).getD []).length)
            | none => false } := by
  simp only [do_file_range, hnb, if_false, hp]

theorem access_cb_range_mode (σ : Type) (parts : List String) (env : FilesEnv σ)
    (w : WebAccessRec) (rp : RepoRec)
    (hp1 : ¬ (parts.length < 3 ∨ parts.headD "" ≠ "files"))
    (hw : env.webaccess = some w)
    (hop : ¬ (w.op ≠ "view" ∧ w.op ≠ "download" ∧ w.op ≠ "download-link"))
    (hims : env.imsPresent = false)
    (hrepo : env.repo = some rp) (henc : rp.encrypted = false)
    (hobj : env.objExists = true)
    (hrng : env.rangeHeader.isSome = true)
    (hne : do_file_range env.file (env.rangeHeader.getD []) w.op env.ua (parts.getD 2 "")
      ≠ RangeOutcome.serverErr) :
    access_cb σ parts env = FilesOutcome.ranged
      (do_file_range env.file (env.rangeHeader.getD []) w.op env.ua (parts.getD 2 "")) := by
  simp only [access_cb, if_neg hp1, hw, if_neg hop, hims, Bool.false_eq_true, if_false,
    hrepo, henc, false_and, if_neg (not_false), hobj, Bool.true_eq_false, hrng, and_true,
    eq_self_iff_true, if_true]

theorem access_cb_whole_mode (σ : Type) (parts : List String) (env : FilesEnv σ)
    (w : WebAccessRec) (rp : RepoRec) (r : DoFileResult)
    (hp1 : ¬ (parts.length < 3 ∨ parts.headD "" ≠ "files"))
    (hw : env.webaccess = some w)
    (hop : ¬ (w.op ≠ "view" ∧ w.op ≠ "download" ∧ w.op ≠ "download-link"))
    (hims : env.imsPresent = false)
    (hrepo : env.repo = some rp)
    (hkey : ¬ (rp.encrypted ∧ env.key.isNone))
    (hobj : env.objExists = true)
    (hwhole : ¬ (rp.encrypted = false ∧ env.rangeHeader.isSome = true))
    (hdf : do_file σ env.file (if rp.encrypted then env.key else none) w.op env.ua
      (parts.getD 2 "") env.isHead = some r) :
    access_cb σ parts env = FilesOutcome.whole r := by
  simp only [access_cb, if_neg hp1, hw, if_neg hop, hims, Bool.false_eq_true, if_false,
    hrepo, if_neg hkey, hobj, Bool.true_eq_false, if_neg (not_false), if_neg hwhole, hdf]

/-- Claim C10 (code bug): `parse_range_val` is claimed to be a total function
of every Range header value, including values without `=`; in the C code
`strchr(byte_ranges, '=')` returns `NULL` on such values and `NULL + 1` is
passed to `g_strdup`, which is undefined behavior.  The model records this
path as `ParseOutcome.ub`, reached at the concrete header value `foo`. -/
theorem c10_parse_range_val_ub :
    parse_range_val (String.toList "foo") 250 = ParseOutcome.ub ∧
    parse_range_val (String.toList "bytes 0-100") 250 = ParseOutcome.ub :=
  ⟨rfl, rfl⟩

/-- Claim C5 (code bug): releasing every resource on every return path is
claimed to hold in particular for HEAD requests; but the HEAD branch of
`do_file` returns without `seafile_unref(file)` and without freeing the
`SeafileCrypt` allocation, so the file descriptor (and the crypt context,
when the repository is encrypted) survives the request, while the non-HEAD
paths do release it. -/
theorem c5_head_request_leaks_file :
    (do_file Unit (some sampleFileU) none "download" none "hello.txt" true).map
      DoFileResult.fileReleased = some false ∧
    (do_file Unit (some sampleFileU) (some sampleDec) "download" none "hello.txt" true).map
      DoFileResult.cryptFreed = some false ∧
    (do_file Unit (some sampleFileU) none "download" none "hello.txt" false).map
      DoFileResult.fileReleased = some true :=
  ⟨rfl, rfl, rfl⟩

/-- Claim C7 (code bug): `X-Content-Type-Options: nosniff` is claimed to be
absent for JPEG responses; but the C code compares the resolved type against
the string `image/jpg`, while `ftmap` maps the jpg/JPG/jpeg/JPEG suffixes to
`image/jpeg`, so the comparison never matches and the header is added for
every filename, JPEGs included. -/
theorem c7_nosniff_always_added :
    parse_content_type "photo.jpg" = some "image/jpeg" ∧
    ∀ fn : String, nosniffAdded fn = true := by
  constructor
  · rfl
  · intro fn
    rcases hp : parse_content_type fn with _ | t
    · simp only [nosniffAdded, hp]
    · have hmem : t ∈ ftmap.map Prod.snd := by
        unfold parse_content_type at hp
        rcases had : afterLastDot fn.toList with _ | suf
        · rw [had] at hp; exact Option.noConfusion hp
        · rw [had] at hp
          exact ftlookup_mem ftmap (String.mk suf) t hp
      have hne : t ≠ "image/jpg" := by
        have hall : ∀ x ∈ ftmap.map Prod.snd, x ≠ "image/jpg" := by decide
        exact hall t hmem
      simp only [nosniffAdded, hp, if_neg hne]

/-- Claim C6, counterexample: the disposition is claimed to use the
`filename*` form exactly when the user agent is Firefox and to be
`attachment` for both `download` and `download-link`; but in whole-file mode
a `download` with a non-Firefox agent still gets the `filename*` form, and in
byte-range mode a `download-link` gets `inline`. -/
theorem c6_disposition_counterexample :
    do_file_disposition "download" false = DispForm.attachStar ∧
    DispForm.attachStar ≠ DispForm.attachPlain ∧
    set_resp_disposition "download-link" false = DispForm.inlinePlain ∧
    DispForm.inlinePlain ≠ DispForm.attachStar :=
  ⟨rfl, by decide, rfl, by decide⟩

/-- Claim C6, amended: in whole-file mode `download` and `download-link`
always use `attachment;filename*=` regardless of the user agent, while other
operations use `inline` with the `filename*` form exactly when the
ASCII-lowercased `User-Agent` contains `firefox`; in byte-range mode only
`download` uses `attachment` (in particular `download-link` gets `inline`),
and the `filename*` form is used exactly when the agent is Firefox. -/
theorem c6_disposition_amended :
    (∀ (op : String) (ff : Bool), (op = "download" ∨ op = "download-link") →
      do_file_disposition op ff = DispForm.attachStar) ∧
    (∀ (op : String) (ff : Bool), op ≠ "download" → op ≠ "download-link" →
      do_file_disposition op ff =
        (if ff then DispForm.inlineStar else DispForm.inlinePlain)) ∧
    (∀ ff : Bool, set_resp_disposition "download" ff =
      (if ff then DispForm.attachStar else DispForm.attachPlain)) ∧
    (∀ (op : String) (ff : Bool), op ≠ "download" →
      set_resp_disposition op ff =
        (if ff then DispForm.inlineStar else DispForm.inlinePlain)) ∧
    test_firefox none = false ∧
    test_firefox (some (String.toList "Mozilla FIREFOX/99")) = true ∧
    test_firefox (some (String.toList "curl/8.0")) = false := by
  refine ⟨?_, ?_, ?_, ?_, rfl, by decide, by decide⟩
  · intro op ff h
    simp only [do_file_disposition, if_pos h]
  · intro op ff h1 h2
    have hno : ¬ (op = "download" ∨ op = "download-link") := by tauto
    simp only [do_file_disposition, if_neg hno]
  · intro ff
    simp only [set_resp_disposition, eq_self_iff_true, if_true]
  · intro op ff h
    simp only [set_resp_disposition, if_neg h]

/-- Claim C6, amended, witness at concrete inputs. -/
theorem c6_disposition_amended_witness :
    do_file_disposition "download" false = DispForm.attachStar ∧
    do_file_disposition "view" true = DispForm.inlineStar ∧
    set_resp_disposition "download" true = DispForm.attachStar ∧
    set_resp_disposition "download-link" true = DispForm.inlineStar := by
  refine ⟨?_, ?_, ?_, ?_⟩
  · exact c6_disposition_amended.1 "download" false (Or.inl rfl)
  · exact c6_disposition_amended.2.1 "view" true (by decide) (by decide)
  · exact c6_disposition_amended.2.2.1 true
  · exact c6_disposition_amended.2.2.2.1 "download-link" true (by decide)

/-- Claim C8, counterexample: a token whose operation is not `downloadblks`
is claimed to produce a 403 reply on `/blks`; but `access_blks_cb` only calls
`do_block` when the operation equals `downloadblks` and otherwise falls
through to the `success:` label without sending any reply at all. -/
theorem c8_blks_op_mismatch_counterexample :
    access_blks_cb ["blks", "tok", "blk0"]
      { webaccess := some { op := "download", username := "u" }, imsPresent := false,
        repoFound := true, objExists := true,
        file := some { blkIds := ["blk0"] }, statSize := fun _ => some 100 }
      = BlksOutcome.noReply ∧
    BlksOutcome.noReply ≠ BlksOutcome.errorReply 403 :=
  ⟨rfl, by decide⟩

/-- Claim C8, amended: for every `/blks` request whose token resolves but
whose operation is not `downloadblks` (URL well-formed, no
`If-Modified-Since`, repo found, object exists), the handler returns without
sending any response; the 403 with a plain-text body is produced only for a
missing token. -/
theorem c8_blks_op_mismatch_amended (parts : List String) (env : BlksEnv)
    (w : WebAccessRec)
    (hparts : parts.length ≥ 3) (hp0 : parts.headD "" = "blks")
    (hw : env.webaccess = some w) (hims : env.imsPresent = false)
    (hrepo : env.repoFound = true) (hobj : env.objExists = true)
    (hop : w.op ≠ "downloadblks") :
    access_blks_cb parts env = BlksOutcome.noReply := by
  have hp1 : ¬ (parts.length < 3 ∨ parts.headD "" ≠ "blks") := by
    push_neg
    exact ⟨by omega, hp0⟩
  simp only [access_blks_cb, if_neg hp1, hw, hims, Bool.false_eq_true, if_false, hrepo,
    Bool.true_eq_false, hobj, hop, if_neg (not_false)]

/-- Claim C8, amended, witness at a concrete request. -/
theorem c8_blks_op_mismatch_amended_witness :
    access_blks_cb ["blks", "tok", "blk1"]
      { webaccess := some { op := "view", username := "u" }, imsPresent := false,
        repoFound := true, objExists := true, file := none, statSize := fun _ => none }
      = BlksOutcome.noReply :=
  c8_blks_op_mismatch_amended _ _ _ (by decide) rfl rfl rfl rfl rfl (by decide)

/-- Claim C3, counterexample: the parser is claimed, for every `file_size`,
to yield `0 ≤ start ≤ end < file_size` on success; but with `file_size = 0`
the `guint64` computation `end = fsize - 1` wraps to `2 ^ 64 - 1`, the clamp
is a no-op, and `bytes=0-` succeeds with an `end` that is not below
`file_size`. -/
theorem c3_range_parser_counterexample :
    parse_range_val (String.toList "bytes=0-") 0 = ParseOutcome.ok 0 (2 ^ 64 - 1) ∧
    ¬ ((2 ^ 64 - 1 : Nat) < 0) :=
  ⟨rfl, by omega⟩

/-- Claim C3, amended: for every `file_size ≥ 1` (a `guint64`, hence below
`2 ^ 64`), the parser accepts exactly the single-range forms `-N`, `N-` and
`N-M` (digit runs within the `long long` range), on success yields
`0 ≤ start ≤ end < file_size`, and fails on a missing `-`, on trailing
garbage, on `-0`, and whenever `start > end` after clamping `end` to
`file_size - 1` (which also rejects multi-range values such as
`bytes=0-5,10-20`). -/
theorem c3_range_parser_amended :
    (∀ (s : List Char) (fsize st en : Nat), 1 ≤ fsize → fsize < U64 →
      parse_range_val s fsize = ParseOutcome.ok st en → st ≤ en ∧ en < fsize) ∧
    (∀ (s tmp : List Char) (fsize : Nat), afterChar '=' s = some tmp →
      (∀ a ∈ tmp, a ≠ '-') → parse_range_val s fsize = ParseOutcome.invalid) ∧
    (∀ fsize : Nat, parse_range_val (String.toList "bytes=-0") fsize
      = ParseOutcome.invalid) ∧
    (∀ fsize : Nat, parse_range_val (String.toList "bytes=1-2x") fsize
      = ParseOutcome.invalid) ∧
    (∀ fsize : Nat, parse_range_val (String.toList "bytes=0-5,10-20") fsize
      = ParseOutcome.invalid) ∧
    (parse_range_val (String.toList "bytes=300-400") 250 = ParseOutcome.invalid) ∧
    (∀ (ds : List Char) (fsize : Nat), 1 ≤ fsize → fsize < U64 → ds ≠ [] →
      (∀ c ∈ ds, isDigitC c = true) → 1 ≤ digitsToNat ds → digitsToNat ds ≤ fsize →
      digitsToNat ds ≤ LLMAXn →
      parse_range_val ('=' :: '-' :: ds) fsize =
        ParseOutcome.ok (fsize - digitsToNat ds) (fsize - 1)) ∧
    (∀ (ds : List Char) (fsize : Nat), fsize < U64 → ds ≠ [] →
      (∀ c ∈ ds, isDigitC c = true) → digitsToNat ds < fsize →
      digitsToNat ds ≤ LLMAXn →
      parse_range_val ('=' :: (ds ++ ['-'])) fsize =
        ParseOutcome.ok (digitsToNat ds) (fsize - 1)) ∧
    (∀ (ds1 ds2 : List Char) (fsize : Nat), fsize < U64 → ds1 ≠ [] → ds2 ≠ [] →
      (∀ c ∈ ds1, isDigitC c = true) → (∀ c ∈ ds2, isDigitC c = true) →
      digitsToNat ds1 ≤ digitsToNat ds2 → digitsToNat ds1 < fsize →
      digitsToNat ds2 ≤ LLMAXn →
      parse_range_val ('=' :: (ds1 ++ '-' :: ds2)) fsize =
        ParseOutcome.ok (digitsToNat ds1) (min (digitsToNat ds2) (fsize - 1))) := by
  refine ⟨?_, ?_, fun _ => rfl, fun _ => rfl, fun _ => rfl, rfl, ?_, ?_, ?_⟩
  · intro s fsize st en h1 h2 h
    exact parse_range_val_ok_bounds s fsize st en h1 h2 h
  · intro s tmp fsize ha h
    exact parse_range_val_no_minus s tmp fsize ha h
  · intro ds fsize h1 h2 hne hd hge hle hll
    exact parse_range_val_neg_form ('=' :: '-' :: ds) ds fsize (by simp [afterChar])
      hne hd hge hle hll h2
  · intro ds fsize h2 hne hd hlt hll
    exact parse_range_val_num_dash_form ('=' :: (ds ++ ['-'])) ds fsize
      (by simp [afterChar]) hne hd hlt hll h2
  · intro ds1 ds2 fsize h2 hne1 hne2 hd1 hd2 hle hlt hll
    exact parse_range_val_num_num_form ('=' :: (ds1 ++ '-' :: ds2)) ds1 ds2 fsize
      (by simp [afterChar]) hne1 hne2 hd1 hd2 hle hlt hll h2

/-- Claim C3, amended, witness at the spec's concrete inputs. -/
theorem c3_range_parser_amended_witness :
    parse_range_val ('=' :: (['1', '5', '0'] ++ '-' :: ['1', '9', '9'])) 250
      = ParseOutcome.ok 150 199 ∧
    parse_range_val ('=' :: '-' :: ['1', '0']) 250 = ParseOutcome.ok 240 249 ∧
    parse_range_val ('=' :: (['1', '0', '0'] ++ ['-'])) 250 = ParseOutcome.ok 100 249 ∧
    (150 ≤ 199 ∧ 199 < 250) := by
  refine ⟨?_, ?_, ?_, ?_⟩
  · rw [c3_range_parser_amended.2.2.2.2.2.2.2.2 ['1', '5', '0'] ['1', '9', '9'] 250
      (by norm_num [U64]) (by decide) (by decide) (by decide) (by decide) (by decide)
      (by decide) (by decide)]
    rfl
  · rw [c3_range_parser_amended.2.2.2.2.2.2.1 ['1', '0'] 250 (by decide)
      (by norm_num [U64]) (by decide) (by decide) (by decide) (by decide) (by decide)]
    rfl
  · rw [c3_range_parser_amended.2.2.2.2.2.2.2.1 ['1', '0', '0'] 250
      (by norm_num [U64]) (by decide) (by decide) (by decide) (by decide)]
    rfl
  · exact c3_range_parser_amended.1 (String.toList "bytes=150-199") 250 150 199
      (by decide) (by norm_num [U64]) rfl

/-- Claim C4, counterexample: the statistics event is claimed to fire iff the
range's last byte equals `file_size - 1` regardless of how many read chunks
the range spans; but for the four-byte file `[[1,2],[3,4]]` and
`Range: bytes=1-3` (whose last byte 3 equals `file_size - 1`), the engine
writes two chunks `[2]` and `[3,4]`, the completion test
`start_off + n >= file_size` sees only the last read (`1 + 2 < 4`), and no
event fires. -/
theorem c4_range_stat_counterexample :
    contentRangeOf (do_file_range (some sampleFile4) (String.toList "bytes=1-3")
      "view" none "a.txt") = some (1, 3, 4) ∧
    (3 : Nat) = 4 - 1 ∧
    statFiredOf (do_file_range (some sampleFile4) (String.toList "bytes=1-3")
      "view" none "a.txt") = some false :=
  ⟨rfl, rfl, rfl⟩

/-- Claim C4, amended: for a byte-range response over a well-formed file, the
statistics event fires at completion iff the range's last byte equals
`file_size - 1` AND the whole range was delivered in a single read chunk (the
code tests `start_off + n >= file_size` where `n` is only the final read);
in particular ranges spanning several read chunks or blocks never fire the
event, even when they end at end-of-file. -/
theorem c4_range_stat_amended (f : FileObj) (rv : List Char) (operation : String)
    (ua : Option (List Char)) (filename : String) (s e : Nat)
    (hsize : f.file_size = f.blocks.flatten.length)
    (hparse : parse_range_val rv f.file_size = ParseOutcome.ok s e)
    (hse : s ≤ e) (hef : e < f.file_size) :
    ∃ r cs, do_file_range (some f) rv operation ua filename = RangeOutcome.content r ∧
      r.chunks = some cs ∧
      (r.statFired = true ↔ (e + 1 = f.file_size ∧ cs.length = 1)) := by
  have hef' : e < f.blocks.flatten.length := by omega
  have hnb : f.blocks.length ≠ 0 := by
    intro h0
    rw [List.eq_nil_of_length_eq_zero h0] at hsize
    simp at hsize
    omega
  obtain ⟨cs, hrun, hflat, hne, hcne⟩ := write_file_range_run_spec f.blocks s e hse hef'
  have hcontent := do_file_range_content f rv operation ua filename s e hnb hparse
  refine ⟨_, cs, hcontent, hrun, ?_⟩
  simp only [hrun]
  rw [decide_eq_true_iff]
  have htot : cs.flatten.length = e - s + 1 := by
    rw [hflat, List.length_take, List.length_drop]
    omega
  have hlastle := mem_length_le_flatten cs _ (getLastD_mem cs hcne)
  have hiff := last_chunk_full_iff cs hcne hne
  constructor
  · intro h
    have hl : (cs.getLast?.getD []).length = cs.flatten.length := by omega
    exact ⟨by omega, hiff.mp hl⟩
  · rintro ⟨h1, h2⟩
    have hl := hiff.mpr h2
    omega

/-- Claim C4, amended, witness: a single-chunk range ending at end-of-file
fires the event. -/
theorem c4_range_stat_amended_witness :
    (parse_range_val (String.toList "bytes=-2") sampleFile4.file_size
      = ParseOutcome.ok 2 3) ∧
    ∃ r cs, do_file_range (some sampleFile4) (String.toList "bytes=-2")
        "view" none "a.txt" = RangeOutcome.content r ∧
      r.chunks = some cs ∧
      (r.statFired = true ↔ (3 + 1 = sampleFile4.file_size ∧ cs.length = 1)) :=
  ⟨rfl, c4_range_stat_amended sampleFile4 (String.toList "bytes=-2") "view" none "a.txt"
    2 3 rfl rfl (by decide) (by decide)⟩

/-- Claim C1: for every unencrypted, non-empty file served in whole-file mode
via GET on `/files` (op `view`, `download` or `download-link`), the response
status is 200, `Content-Length` equals the file's `file_size`, and the body
is the concatenation of the file's blocks in list order. -/
theorem c1_whole_file_delivery (σ : Type) (parts : List String) (env : FilesEnv σ)
    (w : WebAccessRec) (rp : RepoRec) (f : FileObj)
    (hparts : parts.length ≥ 3) (hp0 : parts.headD "" = "files")
    (hw : env.webaccess = some w)
    (hop : w.op = "view" ∨ w.op = "download" ∨ w.op = "download-link")
    (hims : env.imsPresent = false)
    (hrepo : env.repo = some rp) (henc : rp.encrypted = false)
    (hobj : env.objExists = true)
    (hfile : env.file = some f)
    (hrange : env.rangeHeader = none)
    (hhead : env.isHead = false)
    (hnb : f.blocks ≠ []) :
    ∃ r, access_cb σ parts env = FilesOutcome.whole r ∧
      r.status = 200 ∧ r.contentLength = f.file_size ∧ r.body = f.blocks.flatten := by
  have hp1 : ¬ (parts.length < 3 ∨ parts.headD "" ≠ "files") := by
    push_neg
    exact ⟨by omega, hp0⟩
  have hop2 : ¬ (w.op ≠ "view" ∧ w.op ≠ "download" ∧ w.op ≠ "download-link") := by
    tauto
  have hkey : ¬ (rp.encrypted ∧ env.key.isNone) := by
    rw [henc]
    simp
  have hwhole : ¬ (rp.encrypted = false ∧ env.rangeHeader.isSome = true) := by
    rw [hrange]
    simp
  have harg : (if rp.encrypted then env.key else none) = none := by
    rw [henc]
    simp
  have hnbl : f.blocks.length ≠ 0 := by
    intro h0
    exact hnb (List.eq_nil_of_length_eq_zero h0)
  have hdf : do_file σ env.file none w.op env.ua (parts.getD 2 "") env.isHead = some
      { status := 200, contentLength := f.file_size,
        disposition := do_file_disposition w.op (test_firefox env.ua),
        nosniff := nosniffAdded (parts.getD 2 ""),
        body := wholeBody σ none f.blocks,
        engineInstalled := true, fileReleased := true, cryptFreed := true } := by
    rw [hfile, hhead]
    simp only [do_file, Bool.false_eq_true, if_false, hnbl, Option.isNone_none]
  refine ⟨_, access_cb_whole_mode σ parts env w rp _ hp1 hw hop2 hims hrepo hkey hobj
    hwhole (by rw [harg]; exact hdf), rfl, rfl, ?_⟩
  exact wholeBody_none σ f.blocks

/-- Claim C1, witness at a concrete three-block file. -/
theorem c1_whole_file_delivery_witness :
    ∃ r, access_cb Unit ["files", "tok", "hello.txt"]
        { webaccess := some { op := "download", username := "u" }, imsPresent := false,
          rangeHeader := none, ua := none, isHead := false,
          repo := some { encrypted := false }, key := none, objExists := true,
          file := some sampleFileU }
        = FilesOutcome.whole r ∧
      r.status = 200 ∧ r.contentLength = sampleFileU.file_size ∧
      r.body = sampleFileU.blocks.flatten :=
  c1_whole_file_delivery Unit _ _ _ _ sampleFileU (by decide) rfl rfl
    (Or.inr (Or.inl rfl)) rfl rfl rfl rfl rfl rfl rfl (by decide)

/-- Claim C2: for every unencrypted file and every valid parsed range
`(start, end)` with `0 ≤ start ≤ end < file_size`, the `/files` response has
status 206, `Content-Range: bytes start-end/file_size`, `Content-Length`
equal to `end - start + 1`, and a body equal to bytes `start` through `end`
(inclusive) of the concatenation of the file's blocks. -/
theorem c2_range_delivery (σ : Type) (parts : List String) (env : FilesEnv σ)
    (w : WebAccessRec) (rp : RepoRec) (f : FileObj) (rv : List Char) (s e : Nat)
    (hparts : parts.length ≥ 3) (hp0 : parts.headD "" = "files")
    (hw : env.webaccess = some w)
    (hop : w.op = "view" ∨ w.op = "download" ∨ w.op = "download-link")
    (hims : env.imsPresent = false)
    (hrepo : env.repo = some rp) (henc : rp.encrypted = false)
    (hobj : env.objExists = true)
    (hfile : env.file = some f)
    (hrange : env.rangeHeader = some rv)
    (hsize : f.file_size = f.blocks.flatten.length)
    (hparse : parse_range_val rv f.file_size = ParseOutcome.ok s e)
    (hse : s ≤ e) (hef : e < f.file_size) :
    ∃ r cs, access_cb σ parts env = FilesOutcome.ranged (RangeOutcome.content r) ∧
      r.status = 206 ∧ r.contentRange = (s, e, f.file_size) ∧
      r.contentLength = e - s + 1 ∧ r.chunks = some cs ∧
      cs.flatten = (f.blocks.flatten.drop s).take (e - s + 1) := by
  have hp1 : ¬ (parts.length < 3 ∨ parts.headD "" ≠ "files") := by
    push_neg
    exact ⟨by omega, hp0⟩
  have hop2 : ¬ (w.op ≠ "view" ∧ w.op ≠ "download" ∧ w.op ≠ "download-link") := by
    tauto
  have hef' : e < f.blocks.flatten.length := by omega
  have hnb : f.blocks.length ≠ 0 := by
    intro h0
    rw [List.eq_nil_of_length_eq_zero h0] at hsize
    simp at hsize
    omega
  obtain ⟨cs, hrun, hflat, hne, hcne⟩ := write_file_range_run_spec f.blocks s e hse hef'
  have hcontent := do_file_range_content f rv w.op env.ua (parts.getD 2 "") s e hnb hparse
  have hdisp : do_file_range env.file (env.rangeHeader.getD []) w.op env.ua
      (parts.getD 2 "") = RangeOutcome.content
      { status := 206, acceptRanges := true, contentLength := e - s + 1,
        contentRange := (s, e, f.file_size),
        disposition := set_resp_disposition w.op (test_firefox env.ua),
        nosniff := nosniffAdded (parts.getD 2 ""),
        chunks := write_file_range_run f.blocks s (e - s + 1),
        statFired := match write_file_range_run f.blocks s (e - s + 1) with
          | some l => decide (f.file_size ≤ s + ((l.getLast?).getD []).length)
          | none => false } := by
    rw [hfile, hrange]
    exact hcontent
  have hmode := access_cb_range_mode σ parts env w rp hp1 hw hop2 hims hrepo henc hobj
    (by rw [hrange]; rfl)
    (by rw [hdisp]; exact fun h => RangeOutcome.noConfusion h)
  rw [hdisp] at hmode
  exact ⟨_, cs, hmode, rfl, rfl, rfl, hrun, hflat⟩

/-- Claim C2, witness at a concrete two-block file and `Range: bytes=1-2`. -/
theorem c2_range_delivery_witness :
    ∃ r cs, access_cb Unit ["files", "tok", "a.txt"]
        { webaccess := some { op := "view", username := "u" }, imsPresent := false,
          rangeHeader := some (String.toList "bytes=1-2"), ua := none, isHead := false,
          repo := some { encrypted := false }, key := none, objExists := true,
          file := some sampleFile4 }
        = FilesOutcome.ranged (RangeOutcome.content r) ∧
      r.status = 206 ∧ r.contentRange = (1, 2, sampleFile4.file_size) ∧
      r.contentLength = 2 - 1 + 1 ∧ r.chunks = some cs ∧
      cs.flatten = (sampleFile4.blocks.flatten.drop 1).take (2 - 1 + 1) :=
  c2_range_delivery Unit _ _ _ _ sampleFile4 (String.toList "bytes=1-2") 1 2
    (by decide) rfl rfl (Or.inl rfl) rfl rfl rfl rfl rfl rfl rfl rfl
    (by decide) (by decide)

/-- Claim C9: for every GET `/files` request on an encrypted repository that
carries a `Range` header, the dispatcher invokes whole-file mode, the Range
header is ignored (the outcome is identical to the same request without it),
the status is 200, and the body is the full decrypted file: each block pushed
through the per-block decryption pipeline, concatenated in order. -/
theorem c9_encrypted_range_whole_file (σ : Type) (parts : List String) (env : FilesEnv σ)
    (w : WebAccessRec) (rp : RepoRec) (d : DecFns σ) (f : FileObj) (rv : List Char)
    (hparts : parts.length ≥ 3) (hp0 : parts.headD "" = "files")
    (hw : env.webaccess = some w)
    (hop : w.op = "view" ∨ w.op = "download" ∨ w.op = "download-link")
    (hims : env.imsPresent = false)
    (hrepo : env.repo = some rp) (henc : rp.encrypted = true)
    (hkey : env.key = some d)
    (hobj : env.objExists = true) (hfile : env.file = some f)
    (hrange : env.rangeHeader = some rv) (hhead : env.isHead = false) :
    access_cb σ parts env = access_cb σ parts { env with rangeHeader := none } ∧
    ∃ r, access_cb σ parts env = FilesOutcome.whole r ∧ r.status = 200 ∧
      r.body = (f.blocks.map (decryptBlock σ d)).flatten := by
  have hp1 : ¬ (parts.length < 3 ∨ parts.headD "" ≠ "files") := by
    push_neg
    exact ⟨by omega, hp0⟩
  have hop2 : ¬ (w.op ≠ "view" ∧ w.op ≠ "download" ∧ w.op ≠ "download-link") := by
    tauto
  have hkey2 : ¬ (rp.encrypted ∧ env.key.isNone) := by
    rw [hkey]
    simp
  have hwhole : ¬ (rp.encrypted = false ∧ env.rangeHeader.isSome = true) := by
    rw [henc]
    simp
  have hwhole2 : ¬ (rp.encrypted = false ∧
      ({ env with rangeHeader := none } : FilesEnv σ).rangeHeader.isSome = true) := by
    rw [henc]
    simp
  have harg : (if rp.encrypted then env.key else none) = some d := by
    rw [henc, hkey]
    rfl
  by_cases hb : f.blocks.length = 0
  · have hbe : f.blocks = [] := List.eq_nil_of_length_eq_zero hb
    have hdf : do_file σ env.file (some d) w.op env.ua (parts.getD 2 "") env.isHead
        = some
        { status := 200, contentLength := f.file_size,
          disposition := do_file_disposition w.op (test_firefox env.ua),
          nosniff := nosniffAdded (parts.getD 2 ""), body := [],
          engineInstalled := false, fileReleased := true, cryptFreed := false } := by
      rw [hfile, hhead]
      simp only [do_file, Bool.false_eq_true, if_false, hb, eq_self_iff_true, if_true,
        Option.isNone_some]
    have h1 := access_cb_whole_mode σ parts env w rp _ hp1 hw hop2 hims hrepo hkey2
      hobj hwhole (by rw [harg]; exact hdf)
    have h2 := access_cb_whole_mode σ parts { env with rangeHeader := none } w rp _
      hp1 hw hop2 hims hrepo hkey2 hobj hwhole2 (by rw [harg]; exact hdf)
    refine ⟨h1.trans h2.symm, _, h1, rfl, ?_⟩
    rw [hbe]
    rfl
  · have hdf : do_file σ env.file (some d) w.op env.ua (parts.getD 2 "") env.isHead
        = some
        { status := 200, contentLength := f.file_size,
          disposition := do_file_disposition w.op (test_firefox env.ua),
          nosniff := nosniffAdded (parts.getD 2 ""),
          body := wholeBody σ (some d) f.blocks,
          engineInstalled := true, fileReleased := true, cryptFreed := true } := by
      rw [hfile, hhead]
      simp only [do_file, Bool.false_eq_true, if_false, hb]
    have h1 := access_cb_whole_mode σ parts env w rp _ hp1 hw hop2 hims hrepo hkey2
      hobj hwhole (by rw [harg]; exact hdf)
    have h2 := access_cb_whole_mode σ parts { env with rangeHeader := none } w rp _
      hp1 hw hop2 hims hrepo hkey2 hobj hwhole2 (by rw [harg]; exact hdf)
    exact ⟨h1.trans h2.symm, _, h1, rfl, rfl⟩

/-- Claim C9, witness at a concrete encrypted request carrying a Range header. -/
theorem c9_encrypted_range_whole_file_witness :
    access_cb Unit ["files", "tok", "secret.bin"]
      { webaccess := some { op := "download", username := "u" }, imsPresent := false,
        rangeHeader := some (String.toList "bytes=0-1"), ua := none, isHead := false,
        repo := some { encrypted := true }, key := some sampleDec, objExists := true,
        file := some sampleFileU }
      = access_cb Unit ["files", "tok", "secret.bin"]
      { webaccess := some { op := "download", username := "u" }, imsPresent := false,
        rangeHeader := none, ua := none, isHead := false,
        repo := some { encrypted := true }, key := some sampleDec, objExists := true,
        file := some sampleFileU } ∧
    ∃ r, access_cb Unit ["files", "tok", "secret.bin"]
        { webaccess := some { op := "download", username := "u" }, imsPresent := false,
          rangeHeader := some (String.toList "bytes=0-1"), ua := none, isHead := false,
          repo := some { encrypted := true }, key := some sampleDec, objExists := true,
          file := some sampleFileU }
        = FilesOutcome.whole r ∧ r.status = 200 ∧
      r.body = (sampleFileU.blocks.map (decryptBlock Unit sampleDec)).flatten :=
  c9_encrypted_range_whole_file Unit _ _ _ _ sampleDec sampleFileU
    (String.toList "bytes=0-1") (by decide) rfl rfl (Or.inr (Or.inl rfl)) rfl rfl rfl
    rfl rfl rfl rfl rfl
